import Mathlib

/-
Verification of the in-memory DynamoDB backend (src/ddb-local/src/backend.rs).

The embedding below translates the backend's data model and operations into
Lean. Rust `HashMap`s are modelled as association lists with a replace-first
insert; the Rust functions that can panic (`Option::unwrap`) are modelled as
`Option`-valued functions where `none` marks the panic. Each wire operation is
state-passing: it takes the catalog before the call and returns the result
together with the catalog after the call.
-/

set_option maxHeartbeats 1000000

mutual

/-- Modelled from the spec: the tagged attribute value of the emulated
service's value model (string, number, binary, boolean, null, list, map);
the concrete enum lives in the external `dynamodb_local_server_sdk` crate,
which is not part of this repository. Equality is structural ("type and
content must match"). The binary payload is modelled as its byte string;
maps and lists are modelled as (association) lists. -/
inductive AttributeValue where
  | s : String → AttributeValue
  | n : String → AttributeValue
  | b : String → AttributeValue
  | bool : Bool → AttributeValue
  | null : Bool → AttributeValue
  | l : AVList → AttributeValue
  | m : AVMap → AttributeValue
deriving DecidableEq

/-- Sequence of attribute values (payload of the list variant). -/
inductive AVList where
  | nil : AVList
  | cons : AttributeValue → AVList → AVList
deriving DecidableEq

/-- Sequence of (name, value) entries (payload of the map variant). -/
inductive AVMap where
  | nil : AVMap
  | cons : String → AttributeValue → AVMap → AVMap
deriving DecidableEq

end

/-- An item: a mapping from attribute name to attribute value, modelled as an
association list (Rust: `HashMap<String, AttributeValue>`). -/
def Item := List (String × AttributeValue)

instance : DecidableEq Item :=
  inferInstanceAs (DecidableEq (List (String × AttributeValue)))

/-- Association-list lookup (Rust `HashMap::get` / `contains_key`). -/
def alookup {α β : Type} [DecidableEq α] (k : α) : List (α × β) → Option β
  | [] => none
  | (k', v) :: rest => if k' = k then some v else alookup k rest

/-- Association-list insert-or-replace (Rust `HashMap::insert`). -/
def ainsert {α β : Type} [DecidableEq α] (k : α) (v : β) :
    List (α × β) → List (α × β)
  | [] => [(k, v)]
  | (k', v') :: rest => if k' = k then (k, v) :: rest else (k', v') :: ainsert k v rest

theorem alookup_ainsert_self {α β : Type} [DecidableEq α] (k : α) (v : β)
    (m : List (α × β)) : alookup k (ainsert k v m) = some v := by
  induction m with
  | nil => simp [ainsert, alookup]
  | cons hd tl ih =>
    obtain ⟨k', v'⟩ := hd
    by_cases h : k' = k
    · simp [ainsert, alookup, h]
    · simp [ainsert, alookup, h, ih]

theorem alookup_ainsert_ne {α β : Type} [DecidableEq α] {k t : α} (v : β)
    (m : List (α × β)) (h : t ≠ k) : alookup t (ainsert k v m) = alookup t m := by
  induction m with
  | nil => simp [ainsert, alookup, Ne.symm h]
  | cons hd tl ih =>
    obtain ⟨k', v'⟩ := hd
    by_cases hk : k' = k
    · subst hk
      simp [ainsert, alookup, Ne.symm h]
    · simp [ainsert, alookup, hk, ih]

/-- One character of Rust `Debug` string escaping (the escapes relevant to
the characters the model distinguishes: quote, backslash, newline, tab,
carriage return; all other characters are emitted unchanged). -/
def escapeChar (c : Char) : List Char :=
  if c = '"' then ['\\', '"']
  else if c = '\\' then ['\\', '\\']
  else if c = '\n' then ['\\', 'n']
  else if c = '\t' then ['\\', 't']
  else if c = '\r' then ['\\', 'r']
  else [c]

/-- Escape a character sequence for a `Debug`-formatted string literal. -/
def escapeList : List Char → List Char
  | [] => []
  | c :: rest => escapeChar c ++ escapeList rest

/-- `Debug` rendering of a string: quote, escaped content, quote. -/
def fmtStr (s : String) : List Char := '"' :: (escapeList s.data ++ ['"'])

/-- `Debug` rendering of a boolean. -/
def fmtBool : Bool → List Char
  | true => ['t', 'r', 'u', 'e']
  | false => ['f', 'a', 'l', 's', 'e']

mutual

/-- Modelled from the spec: the canonical textual encoding of a tagged
attribute value, as produced by `format!("{:?}", value)` in `key_from_item`
(the derived `Debug` instance of the external SDK enum): variant name,
parenthesised payload, lists bracketed and comma-separated, map entries
rendered as `"key": value` inside braces. -/
def encV : AttributeValue → List Char
  | .s a => 'S' :: '(' :: (fmtStr a ++ [')'])
  | .n a => 'N' :: '(' :: (fmtStr a ++ [')'])
  | .b a => 'B' :: '(' :: (fmtStr a ++ [')'])
  | .bool t => 'B' :: 'o' :: 'o' :: 'l' :: '(' :: (fmtBool t ++ [')'])
  | .null t => 'N' :: 'u' :: 'l' :: 'l' :: '(' :: (fmtBool t ++ [')'])
  | .l xs => 'L' :: '(' :: '[' :: (encL xs ++ [']', ')'])
  | .m kvs => 'M' :: '(' :: '{' :: (encM kvs ++ ['}', ')'])

/-- Comma-separated encoding of a value sequence. -/
def encL : AVList → List Char
  | .nil => []
  | .cons x .nil => encV x
  | .cons x (.cons y t) => encV x ++ ',' :: ' ' :: encL (.cons y t)

/-- Comma-separated encoding of map entries. -/
def encM : AVMap → List Char
  | .nil => []
  | .cons k v .nil => fmtStr k ++ ':' :: ' ' :: encV v
  | .cons k v (.cons k2 v2 t) =>
      (fmtStr k ++ ':' :: ' ' :: encV v) ++ ',' :: ' ' :: encM (.cons k2 v2 t)

end

/-- The canonical textual encoding of an attribute value used for composite
keys (Rust: `format!("{:?}", value)`). -/
def debugFmt (v : AttributeValue) : String := ⟨encV v⟩

/-- Inverse of one escape character (proof-only decoder helper). -/
def unescChar (e : Char) : Char :=
  if e = 'n' then '\n' else if e = 't' then '\t' else if e = 'r' then '\r' else e

/-- Consume an escaped string body up to its closing quote (decoder helper,
used only to establish injectivity of the encoding). -/
def unescapeAux : List Char → Option (List Char × List Char)
  | [] => none
  | c :: rest =>
    if c = '"' then some ([], rest)
    else if c = '\\' then
      match rest with
      | [] => none
      | e :: rest2 =>
        match unescapeAux rest2 with
        | none => none
        | some (S, r) => some (unescChar e :: S, r)
    else
      match unescapeAux rest with
      | none => none
      | some (S, r) => some (c :: S, r)

/-- Decode a quoted, escaped string literal (decoder helper). -/
def decodeStr : List Char → Option (String × List Char)
  | '"' :: rest =>
    match unescapeAux rest with
    | none => none
    | some (S, r) => some (⟨S⟩, r)
  | _ => none

/-- Decode a rendered boolean (decoder helper). -/
def decodeBool : List Char → Option (Bool × List Char)
  | 't' :: 'r' :: 'u' :: 'e' :: rest => some (true, rest)
  | 'f' :: 'a' :: 'l' :: 's' :: 'e' :: rest => some (false, rest)
  | _ => none

mutual

/-- Structural size of a value, used as decoder fuel. -/
def sizeV : AttributeValue → Nat
  | .s _ => 1
  | .n _ => 1
  | .b _ => 1
  | .bool _ => 1
  | .null _ => 1
  | .l xs => 1 + sizeL xs
  | .m kvs => 1 + sizeM kvs

/-- Structural size of a value sequence. -/
def sizeL : AVList → Nat
  | .nil => 1
  | .cons x t => 1 + sizeV x + sizeL t

/-- Structural size of a map entry sequence. -/
def sizeM : AVMap → Nat
  | .nil => 1
  | .cons _ v t => 1 + sizeV v + sizeM t

end

mutual

/-- Fuelled decoder for the value encoding (proof-only). -/
def decodeV : Nat → List Char → Option (AttributeValue × List Char)
  | 0, _ => none
  | f + 1, input =>
    match input with
    | 'S' :: '(' :: rest =>
      match decodeStr rest with
      | some (a, ')' :: r) => some (.s a, r)
      | _ => none
    | 'N' :: 'u' :: 'l' :: 'l' :: '(' :: rest =>
      match decodeBool rest with
      | some (t, ')' :: r) => some (.null t, r)
      | _ => none
    | 'N' :: '(' :: rest =>
      match decodeStr rest with
      | some (a, ')' :: r) => some (.n a, r)
      | _ => none
    | 'B' :: 'o' :: 'o' :: 'l' :: '(' :: rest =>
      match decodeBool rest with
      | some (t, ')' :: r) => some (.bool t, r)
      | _ => none
    | 'B' :: '(' :: rest =>
      match decodeStr rest with
      | some (a, ')' :: r) => some (.b a, r)
      | _ => none
    | 'L' :: '(' :: '[' :: rest =>
      match decodeL f rest with
      | some (xs, ']' :: ')' :: r) => some (.l xs, r)
      | _ => none
    | 'M' :: '(' :: '{' :: rest =>
      match decodeM f rest with
      | some (kvs, '}' :: ')' :: r) => some (.m kvs, r)
      | _ => none
    | _ => none

/-- Fuelled decoder for a bracketed value sequence (stops before `]`). -/
def decodeL : Nat → List Char → Option (AVList × List Char)
  | 0, _ => none
  | f + 1, input =>
    if input.head? = some ']' then some (.nil, input)
    else
      match decodeV f input with
      | none => none
      | some (x, rest) =>
        match rest with
        | ',' :: ' ' :: rest2 =>
          match decodeL f rest2 with
          | none => none
          | some (xs, r) => some (.cons x xs, r)
        | _ => some (.cons x .nil, rest)

/-- Fuelled decoder for a braced entry sequence (stops before a brace). -/
def decodeM : Nat → List Char → Option (AVMap × List Char)
  | 0, _ => none
  | f + 1, input =>
    if input.head? = some '}' then some (.nil, input)
    else
      match decodeStr input with
      | none => none
      | some (k, rest) =>
        match rest with
        | ':' :: ' ' :: rest2 =>
          match decodeV f rest2 with
          | none => none
          | some (v, rest3) =>
            match rest3 with
            | ',' :: ' ' :: rest4 =>
              match decodeM f rest4 with
              | none => none
              | some (kvs, r) => some (.cons k v kvs, r)
            | _ => some (.cons k v .nil, rest3)
        | _ => none

end


theorem unescapeAux_escape (s : List Char) (rest : List Char) :
    unescapeAux (escapeList s ++ '"' :: rest) = some (s, rest) := by
  induction s with
  | nil =>
    rw [show escapeList [] ++ '"' :: rest = '"' :: rest by simp [escapeList]]
    rw [unescapeAux.eq_def]
    simp
  | cons c s ih =>
    by_cases h1 : c = '"'
    · subst h1
      rw [show escapeList ('"' :: s) ++ '"' :: rest =
            '\\' :: '"' :: (escapeList s ++ '"' :: rest) by simp [escapeList, escapeChar]]
      rw [unescapeAux.eq_def]
      simp [ih, unescChar]
    · by_cases h2 : c = '\\'
      · subst h2
        rw [show escapeList ('\\' :: s) ++ '"' :: rest =
              '\\' :: '\\' :: (escapeList s ++ '"' :: rest) by simp [escapeList, escapeChar]]
        rw [unescapeAux.eq_def]
        simp [ih, unescChar]
      · by_cases h3 : c = '\n'
        · subst h3
          rw [show escapeList ('\n' :: s) ++ '"' :: rest =
                '\\' :: 'n' :: (escapeList s ++ '"' :: rest) by simp [escapeList, escapeChar]]
          rw [unescapeAux.eq_def]
          simp [ih, unescChar]
        · by_cases h4 : c = '\t'
          · subst h4
            rw [show escapeList ('\t' :: s) ++ '"' :: rest =
                  '\\' :: 't' :: (escapeList s ++ '"' :: rest) by simp [escapeList, escapeChar]]
            rw [unescapeAux.eq_def]
            simp [ih, unescChar]
          · by_cases h5 : c = '\r'
            · subst h5
              rw [show escapeList ('\r' :: s) ++ '"' :: rest =
                    '\\' :: 'r' :: (escapeList s ++ '"' :: rest) by simp [escapeList, escapeChar]]
              rw [unescapeAux.eq_def]
              simp [ih, unescChar]
            · rw [show escapeList (c :: s) ++ '"' :: rest =
                    c :: (escapeList s ++ '"' :: rest) by
                  simp [escapeList, escapeChar, h1, h2, h3, h4, h5]]
              rw [unescapeAux.eq_def]
              simp [h1, h2, ih]

theorem decodeStr_fmtStr (s : String) (rest : List Char) :
    decodeStr (fmtStr s ++ rest) = some (s, rest) := by
  rw [show fmtStr s ++ rest = '"' :: (escapeList s.data ++ '"' :: rest) by simp [fmtStr]]
  rw [decodeStr.eq_def]
  simp [unescapeAux_escape]

theorem decodeBool_fmtBool (t : Bool) (rest : List Char) :
    decodeBool (fmtBool t ++ rest) = some (t, rest) := by
  cases t <;> rw [fmtBool, decodeBool.eq_def] <;> simp

theorem sizeV_pos (v : AttributeValue) : 1 ≤ sizeV v := by
  cases v <;> simp [sizeV]

theorem sizeL_pos (xs : AVList) : 1 ≤ sizeL xs := by
  cases xs <;> simp [sizeL]
  omega

theorem sizeM_pos (kvs : AVMap) : 1 ≤ sizeM kvs := by
  cases kvs <;> simp [sizeM]
  omega

theorem encV_head (v : AttributeValue) :
    ∃ c t, encV v = c :: t ∧ c ≠ ']' ∧ c ≠ '}' := by
  cases v with
  | s a => exact ⟨'S', '(' :: (fmtStr a ++ [')']), by simp [encV], by decide, by decide⟩
  | n a => exact ⟨'N', '(' :: (fmtStr a ++ [')']), by simp [encV], by decide, by decide⟩
  | b a => exact ⟨'B', '(' :: (fmtStr a ++ [')']), by simp [encV], by decide, by decide⟩
  | bool t =>
    exact ⟨'B', 'o' :: 'o' :: 'l' :: '(' :: (fmtBool t ++ [')']), by simp [encV],
      by decide, by decide⟩
  | null t =>
    exact ⟨'N', 'u' :: 'l' :: 'l' :: '(' :: (fmtBool t ++ [')']), by simp [encV],
      by decide, by decide⟩
  | l xs =>
    exact ⟨'L', '(' :: '[' :: (encL xs ++ [']', ')']), by simp [encV], by decide, by decide⟩
  | m kvs =>
    exact ⟨'M', '(' :: '{' :: (encM kvs ++ ['}', ')']), by simp [encV], by decide, by decide⟩

theorem fmtStr_head (s : String) (r : List Char) :
    (fmtStr s ++ r).head? = some '"' := by
  simp [fmtStr]

mutual

theorem decodeV_encV : ∀ (v : AttributeValue) (f : Nat) (rest : List Char),
    sizeV v ≤ f → decodeV f (encV v ++ rest) = some (v, rest)
  | .s a, f, rest, h => by
    obtain ⟨g, rfl⟩ : ∃ g, f = g + 1 := ⟨f - 1, by simp [sizeV] at h; omega⟩
    rw [show encV (.s a) ++ rest = 'S' :: '(' :: (fmtStr a ++ ')' :: rest) by simp [encV]]
    rw [decodeV.eq_def]
    simp [decodeStr_fmtStr]
  | .n a, f, rest, h => by
    obtain ⟨g, rfl⟩ : ∃ g, f = g + 1 := ⟨f - 1, by simp [sizeV] at h; omega⟩
    rw [show encV (.n a) ++ rest = 'N' :: '(' :: (fmtStr a ++ ')' :: rest) by simp [encV]]
    rw [decodeV.eq_def]
    simp [decodeStr_fmtStr]
  | .b a, f, rest, h => by
    obtain ⟨g, rfl⟩ : ∃ g, f = g + 1 := ⟨f - 1, by simp [sizeV] at h; omega⟩
    rw [show encV (.b a) ++ rest = 'B' :: '(' :: (fmtStr a ++ ')' :: rest) by simp [encV]]
    rw [decodeV.eq_def]
    simp [decodeStr_fmtStr]
  | .bool t, f, rest, h => by
    obtain ⟨g, rfl⟩ : ∃ g, f = g + 1 := ⟨f - 1, by simp [sizeV] at h; omega⟩
    rw [show encV (.bool t) ++ rest
        = 'B' :: 'o' :: 'o' :: 'l' :: '(' :: (fmtBool t ++ ')' :: rest) by simp [encV]]
    rw [decodeV.eq_def]
    simp [decodeBool_fmtBool]
  | .null t, f, rest, h => by
    obtain ⟨g, rfl⟩ : ∃ g, f = g + 1 := ⟨f - 1, by simp [sizeV] at h; omega⟩
    rw [show encV (.null t) ++ rest
        = 'N' :: 'u' :: 'l' :: 'l' :: '(' :: (fmtBool t ++ ')' :: rest) by simp [encV]]
    rw [decodeV.eq_def]
    simp [decodeBool_fmtBool]
  | .l xs, f, rest, h => by
    simp [sizeV] at h
    obtain ⟨g, rfl⟩ : ∃ g, f = g + 1 := ⟨f - 1, by omega⟩
    have hl := decodeL_encL xs g (')' :: rest) (by omega)
    rw [show encV (.l xs) ++ rest
        = 'L' :: '(' :: '[' :: (encL xs ++ ']' :: ')' :: rest) by simp [encV]]
    rw [decodeV.eq_def]
    simp [hl]
  | .m kvs, f, rest, h => by
    simp [sizeV] at h
    obtain ⟨g, rfl⟩ : ∃ g, f = g + 1 := ⟨f - 1, by omega⟩
    have hm := decodeM_encM kvs g (')' :: rest) (by omega)
    rw [show encV (.m kvs) ++ rest
        = 'M' :: '(' :: '{' :: (encM kvs ++ '}' :: ')' :: rest) by simp [encV]]
    rw [decodeV.eq_def]
    simp [hm]

theorem decodeL_encL : ∀ (xs : AVList) (f : Nat) (rest : List Char),
    sizeL xs ≤ f → decodeL f (encL xs ++ ']' :: rest) = some (xs, ']' :: rest)
  | .nil, f, rest, h => by
    obtain ⟨g, rfl⟩ : ∃ g, f = g + 1 := ⟨f - 1, by simp [sizeL] at h; omega⟩
    rw [show encL .nil ++ ']' :: rest = ']' :: rest by simp [encL]]
    rw [decodeL.eq_def]
    simp
  | .cons x .nil, f, rest, h => by
    simp [sizeL] at h
    obtain ⟨g, rfl⟩ : ∃ g, f = g + 1 := ⟨f - 1, by omega⟩
    obtain ⟨c, t, hv, hc1, hc2⟩ := encV_head x
    have hrt := decodeV_encV x g (']' :: rest) (by omega)
    rw [show encL (.cons x .nil) ++ ']' :: rest = encV x ++ ']' :: rest by simp [encL]]
    rw [hv] at hrt ⊢
    simp only [List.cons_append] at hrt ⊢
    rw [decodeL.eq_def]
    simp only [List.head?_cons]
    rw [if_neg (by simp [hc1])]
    simp [hrt]
  | .cons x (.cons y t0), f, rest, h => by
    simp [sizeL] at h
    obtain ⟨g, rfl⟩ : ∃ g, f = g + 1 := ⟨f - 1, by omega⟩
    obtain ⟨c, t, hv, hc1, hc2⟩ := encV_head x
    have hrt := decodeV_encV x g (',' :: ' ' :: (encL (.cons y t0) ++ ']' :: rest))
      (by omega)
    have hl := decodeL_encL (.cons y t0) g rest (by simp only [sizeL]; omega)
    rw [show encL (.cons x (.cons y t0)) ++ ']' :: rest
        = encV x ++ ',' :: ' ' :: (encL (.cons y t0) ++ ']' :: rest) by simp [encL]]
    rw [hv] at hrt ⊢
    simp only [List.cons_append] at hrt ⊢
    rw [decodeL.eq_def]
    simp only [List.head?_cons]
    rw [if_neg (by simp [hc1])]
    simp [hrt, hl]

theorem decodeM_encM : ∀ (kvs : AVMap) (f : Nat) (rest : List Char),
    sizeM kvs ≤ f → decodeM f (encM kvs ++ '}' :: rest) = some (kvs, '}' :: rest)
  | .nil, f, rest, h => by
    obtain ⟨g, rfl⟩ : ∃ g, f = g + 1 := ⟨f - 1, by simp [sizeM] at h; omega⟩
    rw [show encM .nil ++ '}' :: rest = '}' :: rest by simp [encM]]
    rw [decodeM.eq_def]
    simp
  | .cons k v .nil, f, rest, h => by
    simp [sizeM] at h
    obtain ⟨g, rfl⟩ : ∃ g, f = g + 1 := ⟨f - 1, by omega⟩
    have hrt := decodeV_encV v g ('}' :: rest) (by omega)
    rw [show encM (.cons k v .nil) ++ '}' :: rest
        = fmtStr k ++ (':' :: ' ' :: (encV v ++ '}' :: rest)) by simp [encM]]
    rw [decodeM.eq_def]
    simp only [fmtStr_head, Option.some.injEq]
    rw [if_neg (by decide)]
    rw [decodeStr_fmtStr]
    simp [hrt]
  | .cons k v (.cons k2 v2 t0), f, rest, h => by
    simp [sizeM] at h
    obtain ⟨g, rfl⟩ : ∃ g, f = g + 1 := ⟨f - 1, by omega⟩
    have hrt := decodeV_encV v g (',' :: ' ' :: (encM (.cons k2 v2 t0) ++ '}' :: rest))
      (by omega)
    have hm := decodeM_encM (.cons k2 v2 t0) g rest (by simp only [sizeM]; omega)
    rw [show encM (.cons k v (.cons k2 v2 t0)) ++ '}' :: rest
        = fmtStr k ++ (':' :: ' ' ::
            (encV v ++ ',' :: ' ' :: (encM (.cons k2 v2 t0) ++ '}' :: rest))) by
      simp [encM]]
    rw [decodeM.eq_def]
    simp only [fmtStr_head, Option.some.injEq]
    rw [if_neg (by decide)]
    rw [decodeStr_fmtStr]
    simp [hrt, hm]

end

theorem encV_injective {v w : AttributeValue} (h : encV v = encV w) : v = w := by
  have h1 := decodeV_encV v (sizeV v + sizeV w) [] (by omega)
  have h2 := decodeV_encV w (sizeV v + sizeV w) [] (by omega)
  rw [h] at h1
  rw [h1] at h2
  simpa using h2

theorem debugFmt_injective {v w : AttributeValue} (h : debugFmt v = debugFmt w) :
    v = w :=
  encV_injective (congrArg String.data h)

/-- Rust `str::trim` on the right edge: drop trailing whitespace. -/
def trimRight : List Char → List Char
  | [] => []
  | c :: rest =>
    match trimRight rest with
    | [] => if c.isWhitespace then [] else [c]
    | d :: r => c :: d :: r

/-- Rust `str::trim`: drop leading and trailing whitespace (modelled with
the ASCII whitespace class of `Char.isWhitespace`). -/
def trimL (l : List Char) : List Char := trimRight (l.dropWhile Char.isWhitespace)

/-- Rust `str::contains` for a literal pattern. -/
def containsL (sep : List Char) : List Char → Bool
  | [] => sep.isEmpty
  | c :: rest => sep.isPrefixOf (c :: rest) || containsL sep rest

/-- Rust `str::find` for a literal pattern: index of the first match. -/
def findSub (needle : List Char) : List Char → Option Nat
  | [] => if needle.isEmpty then some 0 else none
  | c :: rest =>
    if needle.isPrefixOf (c :: rest) then some 0
    else (findSub needle rest).map (· + 1)

/-- Rust `str::split` on a literal pattern, with explicit fuel (each step
consumes at least one character, so `hay.length` fuel always suffices; the
fuel-exhausted arm is unreachable for the fuel used by `splitOnL`). -/
def splitOnFuel : Nat → List Char → List Char → List (List Char)
  | 0, _, hay => [hay]
  | f + 1, sep, hay =>
    match hay with
    | [] => [[]]
    | c :: rest =>
      if sep ≠ [] ∧ sep.isPrefixOf (c :: rest) then
        [] :: splitOnFuel f sep ((c :: rest).drop sep.length)
      else
        match splitOnFuel f sep rest with
        | [] => [[c]]
        | p :: ps => (c :: p) :: ps

/-- Rust `str::split` on a literal pattern. -/
def splitOnL (sep hay : List Char) : List (List Char) := splitOnFuel hay.length sep hay

/-- Short-circuiting conjunction over `Option Bool` results, mirroring
`Iterator::all` over an evaluator that can panic (`none`). -/
def shortAll : List (List Char) → (List Char → Option Bool) → Option Bool
  | [], _ => some true
  | x :: xs, f =>
    match f x with
    | none => none
    | some false => some false
    | some true => shortAll xs f

/-- Short-circuiting disjunction over `Option Bool` results, mirroring
`Iterator::any` over an evaluator that can panic (`none`). -/
def shortAny : List (List Char) → (List Char → Option Bool) → Option Bool
  | [], _ => some false
  | x :: xs, f =>
    match f x with
    | none => none
    | some true => some true
    | some false => shortAny xs f

/-- The connective-free base cases of `evaluate_condition_expression`
(`backend.rs` lines 30-59), applied to the already-trimmed expression:
`attribute_not_exists(name)`, then `attribute_exists(name)`, then
`attr = :placeholder`, then the fail-closed default. `none` models the Rust
panic (`unwrap`) when a recognised marker is not followed by `)`. -/
def evalBase (expr : List Char) (item values : Option Item) : Option Bool :=
  match findSub "attribute_not_exists(".data expr with
  | some attr_start =>
    match findSub [')'] (expr.drop attr_start) with
    | none => none
    | some j =>
      some (match item with
        | none => true
        | some i =>
          (alookup (⟨(expr.drop (attr_start + 21)).take (j - 21)⟩ : String) i).isNone)
  | none =>
    match findSub "attribute_exists(".data expr with
    | some attr_start =>
      match findSub [')'] (expr.drop attr_start) with
      | none => none
      | some j =>
        some (match item with
          | none => false
          | some i =>
            (alookup (⟨(expr.drop (attr_start + 17)).take (j - 17)⟩ : String) i).isSome)
    | none =>
      match findSub " = ".data expr with
      | some eq_pos =>
        some (match item, values with
          | some i, some vals =>
            match alookup (⟨trimL (expr.take eq_pos)⟩ : String) i,
                alookup (⟨trimL (expr.drop (eq_pos + 3))⟩ : String) vals with
            | some item_value, some expected_value => decide (item_value = expected_value)
            | _, _ => false
          | _, _ => false)
      | none => some false

/-- The condition-expression evaluator of `backend.rs`
(`evaluate_condition_expression`), with explicit recursion fuel: each
recursive call is on a strictly shorter string, so `length + 1` fuel always
suffices (`evalCondFuel_congr` below). -/
def evalCondFuel : Nat → List Char → Option Item → Option Item → Option Bool
  | 0, _, _, _ => none
  | f + 1, expression, item, values =>
    let expr := trimL expression
    if containsL " AND ".data expr then
      shortAll (splitOnL " AND ".data expr) (fun sub => evalCondFuel f (trimL sub) item values)
    else if containsL " OR ".data expr then
      shortAny (splitOnL " OR ".data expr) (fun sub => evalCondFuel f (trimL sub) item values)
    else
      evalBase expr item values

/-- `evaluate_condition_expression` from `backend.rs`: recursively splits on
`" AND "` then `" OR "`, then recognises `attribute_not_exists(name)`,
`attribute_exists(name)` and `attr = :placeholder`, defaulting to false.
`none` models a Rust panic. -/
def evaluate_condition_expression (expression : String) (item values : Option Item) :
    Option Bool :=
  evalCondFuel (expression.data.length + 1) expression.data item values

/-- A table's storage (Rust `TableStore`): the key schema, fixed at
creation, and the item mapping keyed by composite key. -/
structure TableStore where
  schema : List String
  items : List (List String × Item)
deriving DecidableEq

/-- Composite-key derivation over a schema: for each schema attribute in
declared order, the `Debug` encoding of the item's value at that attribute;
`none` models the Rust panic (`item.get(key).unwrap()`) when the item lacks
a schema attribute. -/
def key_from_item_schema : List String → Item → Option (List String)
  | [], _ => some []
  | key :: rest, item =>
    match alookup key item with
    | none => none
    | some v => (key_from_item_schema rest item).map (fun k => debugFmt v :: k)

/-- `TableStore::key_from_item` from `backend.rs`. -/
def key_from_item (table_store : TableStore) (item : Item) : Option (List String) :=
  key_from_item_schema table_store.schema item

/-- The table catalog (Rust: `HashMap<String, TableStore>` behind the
`InMemoryDynamoDb` mutex), modelled as an association list. -/
def Catalog := List (String × TableStore)

instance : DecidableEq Catalog :=
  inferInstanceAs (DecidableEq (List (String × TableStore)))

/-- Error payload carrying a human-readable message. -/
structure ResourceNotFoundException where
  message : Option String
deriving DecidableEq

/-- Error payload carrying a human-readable message. -/
structure ConditionalCheckFailedException where
  message : Option String
deriving DecidableEq

/-- Error payload carrying a human-readable message. -/
structure ResourceInUseException where
  message : Option String
deriving DecidableEq

/-- Error kinds of the wire-facing `get_item`. -/
inductive GetItemError where
  | resourceNotFoundException : ResourceNotFoundException → GetItemError
deriving DecidableEq

/-- Error kinds of the wire-facing `put_item`. -/
inductive PutItemError where
  | resourceNotFoundException : ResourceNotFoundException → PutItemError
  | conditionalCheckFailedException : ConditionalCheckFailedException → PutItemError
deriving DecidableEq

/-- Error kinds of the wire-facing `create_table`. -/
inductive CreateTableError where
  | resourceInUseException : ResourceInUseException → CreateTableError
deriving DecidableEq

/-- Input of `get_item`. -/
structure GetItemInput where
  table_name : String
  key : Item
deriving DecidableEq

/-- Output of `get_item`. -/
structure GetItemOutput where
  item : Option Item
  consumed_capacity : Option Unit
deriving DecidableEq

/-- Input of `put_item`. -/
structure PutItemInput where
  table_name : String
  item : Item
  condition_expression : Option String
  expression_attribute_values : Option Item
deriving DecidableEq

/-- Output of `put_item`. -/
structure PutItemOutput where
  attributes : Option Item
  consumed_capacity : Option Unit
  item_collection_metrics : Option Unit
deriving DecidableEq

/-- One element of a create-table key schema (only the attribute name is
consumed by the backend). -/
structure KeySchemaElement where
  attribute_name : String
deriving DecidableEq

/-- Input of `create_table`. -/
structure CreateTableInput where
  table_name : String
  key_schema : List KeySchemaElement
deriving DecidableEq

/-- Output of `create_table`. -/
structure CreateTableOutput where
  table_description : Option Unit
deriving DecidableEq

/-- Wire-facing `get_item` from `backend.rs`, state-passing: returns the
result and the catalog after the call; the outer `none` models a panic. -/
def get_item (cat : Catalog) (input : GetItemInput) :
    Option ((Except GetItemError GetItemOutput) × Catalog) :=
  match alookup input.table_name cat with
  | none =>
    some (.error (.resourceNotFoundException
      ⟨some ("Table: " ++ input.table_name ++ " not found")⟩), cat)
  | some table_store =>
    match key_from_item table_store input.key with
    | none => none
    | some key => some (.ok ⟨alookup key table_store.items, none⟩, cat)

/-- Wire-facing `put_item` from `backend.rs`, state-passing: returns the
result and the catalog after the call; the outer `none` models a panic.
As in the source, the composite key is derived once for the condition check
and again for the insert. -/
def put_item (cat : Catalog) (input : PutItemInput) :
    Option ((Except PutItemError PutItemOutput) × Catalog) :=
  match alookup input.table_name cat with
  | none =>
    some (.error (.resourceNotFoundException
      ⟨some ("Table: " ++ input.table_name ++ " not found")⟩), cat)
  | some table_store =>
    match input.condition_expression with
    | some condition_expr =>
      match key_from_item table_store input.item with
      | none => none
      | some key =>
        match evaluate_condition_expression condition_expr
            (alookup key table_store.items) input.expression_attribute_values with
        | none => none
        | some false =>
          some (.error (.conditionalCheckFailedException
            ⟨some ("The conditional request failed")⟩), cat)
        | some true =>
          match key_from_item table_store input.item with
          | none => none
          | some key2 =>
            some (.ok ⟨none, none, none⟩,
              ainsert input.table_name
                ⟨table_store.schema, ainsert key2 input.item table_store.items⟩ cat)
    | none =>
      match key_from_item table_store input.item with
      | none => none
      | some key =>
        some (.ok ⟨none, none, none⟩,
          ainsert input.table_name
            ⟨table_store.schema, ainsert key input.item table_store.items⟩ cat)

/-- Wire-facing `create_table` from `backend.rs`: check-and-insert; a name
collision is the recoverable `ResourceInUse` error. -/
def create_table (cat : Catalog) (input : CreateTableInput) :
    (Except CreateTableError CreateTableOutput) × Catalog :=
  let key_schema := input.key_schema.map (fun k => k.attribute_name)
  match alookup input.table_name cat with
  | none => (.ok ⟨none⟩, ainsert input.table_name ⟨key_schema, []⟩ cat)
  | some _ =>
    (.error (.resourceInUseException
      ⟨some ("Table " ++ input.table_name ++ " already exists")⟩), cat)

/-- Direct bootstrap `InMemoryDynamoDb::create_table` helper: panics
(modelled `none`) when the table already exists. -/
def create_table_direct (cat : Catalog) (table_name : String)
    (key_schema : List String) : Option Catalog :=
  match alookup table_name cat with
  | none => some (ainsert table_name ⟨key_schema, []⟩ cat)
  | some _ => none

theorem trimRight_length (l : List Char) : (trimRight l).length ≤ l.length := by
  induction l with
  | nil => simp [trimRight]
  | cons c rest ih =>
    simp only [trimRight]
    cases h : trimRight rest with
    | nil =>
      by_cases hc : c.isWhitespace <;> simp [hc]
    | cons d r =>
      rw [h] at ih
      simp only [List.length_cons] at ih ⊢
      omega

theorem trimL_length (l : List Char) : (trimL l).length ≤ l.length := by
  calc (trimL l).length ≤ (l.dropWhile Char.isWhitespace).length := trimRight_length _
    _ ≤ l.length := (List.dropWhile_sublist _).length_le

theorem trimRight_idem (l : List Char) : trimRight (trimRight l) = trimRight l := by
  induction l with
  | nil => simp [trimRight]
  | cons c rest ih =>
    cases h : trimRight rest with
    | nil =>
      have hcr : trimRight (c :: rest) = if c.isWhitespace then [] else [c] := by
        rw [show trimRight (c :: rest)
            = (match trimRight rest with
               | [] => if c.isWhitespace then [] else [c]
               | d :: r => c :: d :: r) from rfl, h]
      rw [hcr]
      by_cases hc : c.isWhitespace
      · simp [hc, trimRight]
      · simp [hc, trimRight]
    | cons d r =>
      have hcr : trimRight (c :: rest) = c :: d :: r := by
        rw [show trimRight (c :: rest)
            = (match trimRight rest with
               | [] => if c.isWhitespace then [] else [c]
               | d :: r => c :: d :: r) from rfl, h]
      rw [h] at ih
      rw [hcr]
      rw [show trimRight (c :: d :: r)
          = (match trimRight (d :: r) with
             | [] => if c.isWhitespace then [] else [c]
             | d2 :: r2 => c :: d2 :: r2) from rfl, ih]

theorem trimRight_head (c : Char) (rest : List Char) :
    trimRight (c :: rest) = [] ∨ ∃ t, trimRight (c :: rest) = c :: t := by
  rw [show trimRight (c :: rest)
      = (match trimRight rest with
         | [] => if c.isWhitespace then [] else [c]
         | d :: r => c :: d :: r) from rfl]
  cases h : trimRight rest with
  | nil =>
    by_cases hc : c.isWhitespace
    · simp [hc]
    · simp [hc]
  | cons d r => simp

theorem dropWhile_head_not (p : Char → Bool) (l : List Char) :
    l.dropWhile p = [] ∨ ∃ c t, l.dropWhile p = c :: t ∧ p c = false := by
  induction l with
  | nil => simp
  | cons c rest ih =>
    by_cases hc : p c
    · simpa [List.dropWhile_cons, hc] using ih
    · right
      refine ⟨c, rest, ?_, by simpa using hc⟩
      simp [List.dropWhile_cons, hc]

theorem trimL_idem (l : List Char) : trimL (trimL l) = trimL l := by
  unfold trimL
  rcases dropWhile_head_not Char.isWhitespace l with h | ⟨c, t, h, hc⟩
  · rw [h]
    simp [trimRight]
  · rw [h]
    rcases trimRight_head c t with h2 | ⟨t2, h2⟩
    · rw [h2]
      simp [trimRight]
    · rw [h2, List.dropWhile_cons]
      rw [if_neg (by simp [hc])]
      rw [← h2, trimRight_idem]

theorem splitOnFuel_succ_cons (f : Nat) (sep : List Char) (c : Char) (rest : List Char) :
    splitOnFuel (f + 1) sep (c :: rest)
      = if sep ≠ [] ∧ sep.isPrefixOf (c :: rest) then
          [] :: splitOnFuel f sep ((c :: rest).drop sep.length)
        else
          match splitOnFuel f sep rest with
          | [] => [[c]]
          | p :: ps => (c :: p) :: ps := rfl

theorem splitOnFuel_ne_nil (f : Nat) (sep hay : List Char) :
    splitOnFuel f sep hay ≠ [] := by
  induction f generalizing hay with
  | zero => simp [splitOnFuel]
  | succ f ih =>
    cases hay with
    | nil => simp [splitOnFuel]
    | cons c rest =>
      rw [splitOnFuel_succ_cons]
      by_cases hp : sep ≠ [] ∧ sep.isPrefixOf (c :: rest)
      · rw [if_pos hp]
        simp
      · rw [if_neg hp]
        cases h : splitOnFuel f sep rest with
        | nil => simp
        | cons p ps => simp

theorem splitOnFuel_length_le (f : Nat) (sep hay : List Char) :
    ∀ p ∈ splitOnFuel f sep hay, p.length ≤ hay.length := by
  induction f generalizing hay with
  | zero =>
    intro p hp
    simp [splitOnFuel] at hp
    simp [hp]
  | succ f ih =>
    intro p hp
    cases hay with
    | nil =>
      simp [splitOnFuel] at hp
      simp [hp]
    | cons c rest =>
      rw [splitOnFuel_succ_cons] at hp
      by_cases hpre : sep ≠ [] ∧ sep.isPrefixOf (c :: rest)
      · rw [if_pos hpre] at hp
        simp only [List.mem_cons] at hp
        rcases hp with rfl | hp
        · simp
        · have := ih _ p hp
          simp only [List.length_drop, List.length_cons] at this
          simp only [List.length_cons]
          omega
      · rw [if_neg hpre] at hp
        cases h : splitOnFuel f sep rest with
        | nil =>
          rw [h] at hp
          simp at hp
          simp [hp, List.length_cons]
        | cons p0 ps =>
          rw [h] at hp
          simp only [List.mem_cons] at hp
          rcases hp with rfl | hp
          · have := ih rest p0 (by rw [h]; exact List.mem_cons_self _ _)
            simp only [List.length_cons]
            omega
          · have := ih rest p (by rw [h]; exact List.mem_cons_of_mem _ hp)
            simp only [List.length_cons]
            omega

theorem splitOnFuel_length_lt (f : Nat) (sep hay : List Char)
    (hf : hay.length ≤ f) (hsep : sep ≠ []) (hc : containsL sep hay = true) :
    ∀ p ∈ splitOnFuel f sep hay, p.length < hay.length := by
  induction f generalizing hay with
  | zero =>
    intro p hp
    have : hay = [] := by
      cases hay with
      | nil => rfl
      | cons c r => simp at hf
    subst this
    simp [containsL, hsep] at hc
  | succ f ih =>
    intro p hp
    cases hay with
    | nil => simp [containsL, hsep] at hc
    | cons c rest =>
      rw [splitOnFuel_succ_cons] at hp
      by_cases hpre : sep ≠ [] ∧ sep.isPrefixOf (c :: rest)
      · rw [if_pos hpre] at hp
        simp only [List.mem_cons] at hp
        rcases hp with rfl | hp
        · simp
        · have hle := splitOnFuel_length_le f sep ((c :: rest).drop sep.length) p hp
          have hsl : 1 ≤ sep.length := by
            cases sep with
            | nil => simp at hsep
            | cons a b => simp
          simp only [List.length_drop, List.length_cons] at hle ⊢
          omega
      · rw [if_neg hpre] at hp
        have hpre2 : ¬ sep.isPrefixOf (c :: rest) = true := by
          intro hb
          exact hpre ⟨hsep, hb⟩
        have hcrest : containsL sep rest = true := by
          have hcc := hc
          simp only [containsL, Bool.or_eq_true] at hcc
          rcases hcc with hbad | hgood
          · exact absurd hbad hpre2
          · exact hgood
        cases h : splitOnFuel f sep rest with
        | nil => exact absurd h (splitOnFuel_ne_nil f sep rest)
        | cons p0 ps =>
          rw [h] at hp
          simp only [List.mem_cons] at hp
          rcases hp with rfl | hp
          · have := ih rest (by simp at hf; omega) hcrest p0
              (by rw [h]; exact List.mem_cons_self _ _)
            simp only [List.length_cons]
            omega
          · have := splitOnFuel_length_le f sep rest p (by rw [h]; exact List.mem_cons_of_mem _ hp)
            simp only [List.length_cons]
            omega

theorem splitOnL_length_lt (sep hay : List Char) (hsep : sep ≠ [])
    (hc : containsL sep hay = true) :
    ∀ p ∈ splitOnL sep hay, p.length < hay.length :=
  splitOnFuel_length_lt hay.length sep hay le_rfl hsep hc

theorem shortAll_congr (l : List (List Char)) (f g : List Char → Option Bool)
    (h : ∀ x ∈ l, f x = g x) : shortAll l f = shortAll l g := by
  induction l with
  | nil => simp [shortAll]
  | cons x xs ih =>
    simp only [shortAll]
    rw [h x (List.mem_cons_self _ _)]
    cases g x with
    | none => rfl
    | some b =>
      cases b with
      | false => rfl
      | true => exact ih (fun y hy => h y (List.mem_cons_of_mem _ hy))

theorem shortAny_congr (l : List (List Char)) (f g : List Char → Option Bool)
    (h : ∀ x ∈ l, f x = g x) : shortAny l f = shortAny l g := by
  induction l with
  | nil => simp [shortAny]
  | cons x xs ih =>
    simp only [shortAny]
    rw [h x (List.mem_cons_self _ _)]
    cases g x with
    | none => rfl
    | some b =>
      cases b with
      | true => rfl
      | false => exact ih (fun y hy => h y (List.mem_cons_of_mem _ hy))

theorem shortAll_eq_true (l : List (List Char)) (f : List Char → Option Bool) :
    shortAll l f = some true ↔ ∀ x ∈ l, f x = some true := by
  induction l with
  | nil => simp [shortAll]
  | cons x xs ih =>
    simp only [shortAll]
    cases hx : f x with
    | none => simp [hx]
    | some b =>
      cases b with
      | false => simp [hx]
      | true => simp [hx, ih]

theorem shortAny_eq_true (l : List (List Char)) (f : List Char → Option Bool)
    (hnn : shortAny l f ≠ none) :
    (shortAny l f = some true ↔ ∃ x ∈ l, f x = some true) := by
  induction l with
  | nil => simp [shortAny]
  | cons x xs ih =>
    simp only [shortAny] at hnn ⊢
    cases hx : f x with
    | none => rw [hx] at hnn; simp at hnn
    | some b =>
      cases b with
      | true => simp [hx]
      | false =>
        rw [hx] at hnn
        simp [hx, ih hnn]

theorem evalCondFuel_succ (f : Nat) (e : List Char) (item values : Option Item) :
    evalCondFuel (f + 1) e item values
      = (if containsL " AND ".data (trimL e) then
          shortAll (splitOnL " AND ".data (trimL e))
            (fun sub => evalCondFuel f (trimL sub) item values)
        else if containsL " OR ".data (trimL e) then
          shortAny (splitOnL " OR ".data (trimL e))
            (fun sub => evalCondFuel f (trimL sub) item values)
        else
          evalBase (trimL e) item values) := rfl

theorem evalCondFuel_congr : ∀ (f g : Nat) (e1 e2 : List Char) (item values : Option Item),
    trimL e1 = trimL e2 → e1.length < f → e2.length < g →
    evalCondFuel f e1 item values = evalCondFuel g e2 item values := by
  intro f
  induction f with
  | zero =>
    intro g e1 e2 item values ht h1 h2
    omega
  | succ f ih =>
    intro g e1 e2 item values ht h1 h2
    obtain ⟨g', rfl⟩ : ∃ g', g = g' + 1 := ⟨g - 1, by omega⟩
    rw [evalCondFuel_succ, evalCondFuel_succ, ht]
    have hlen : (trimL e2).length ≤ e2.length := trimL_length e2
    have hlen1 : (trimL e2).length ≤ e1.length := by
      rw [← ht]
      exact trimL_length e1
    by_cases hAND : containsL " AND ".data (trimL e2) = true
    · rw [if_pos hAND, if_pos hAND]
      apply shortAll_congr
      intro sub hsub
      have hlt := splitOnL_length_lt " AND ".data (trimL e2) (by decide) hAND sub hsub
      have htl : (trimL sub).length ≤ sub.length := trimL_length sub
      exact ih g' (trimL sub) (trimL sub) item values rfl (by omega) (by omega)
    · rw [if_neg hAND, if_neg hAND]
      by_cases hOR : containsL " OR ".data (trimL e2) = true
      · rw [if_pos hOR, if_pos hOR]
        apply shortAny_congr
        intro sub hsub
        have hlt := splitOnL_length_lt " OR ".data (trimL e2) (by decide) hOR sub hsub
        have htl : (trimL sub).length ≤ sub.length := trimL_length sub
        exact ih g' (trimL sub) (trimL sub) item values rfl (by omega) (by omega)
      · rw [if_neg hOR, if_neg hOR]

theorem string_data_mk (l : List Char) : (String.mk l).data = l := rfl

theorem evaluate_condition_expression_unfold (e : String) (item values : Option Item) :
    evaluate_condition_expression e item values
      = (if containsL " AND ".data (trimL e.data) then
          shortAll (splitOnL " AND ".data (trimL e.data))
            (fun sub => evaluate_condition_expression ⟨sub⟩ item values)
        else if containsL " OR ".data (trimL e.data) then
          shortAny (splitOnL " OR ".data (trimL e.data))
            (fun sub => evaluate_condition_expression ⟨sub⟩ item values)
        else
          evalBase (trimL e.data) item values) := by
  simp only [evaluate_condition_expression, string_data_mk]
  rw [evalCondFuel_succ]
  have h2 : (trimL e.data).length ≤ e.data.length := trimL_length e.data
  by_cases hAND : containsL " AND ".data (trimL e.data) = true
  · rw [if_pos hAND, if_pos hAND]
    apply shortAll_congr
    intro sub hsub
    have hlt := splitOnL_length_lt " AND ".data (trimL e.data) (by decide) hAND sub hsub
    have h1 : (trimL sub).length ≤ sub.length := trimL_length sub
    exact evalCondFuel_congr _ _ _ _ item values (trimL_idem sub) (by omega) (by omega)
  · rw [if_neg hAND, if_neg hAND]
    by_cases hOR : containsL " OR ".data (trimL e.data) = true
    · rw [if_pos hOR, if_pos hOR]
      apply shortAny_congr
      intro sub hsub
      have hlt := splitOnL_length_lt " OR ".data (trimL e.data) (by decide) hOR sub hsub
      have h1 : (trimL sub).length ≤ sub.length := trimL_length sub
      exact evalCondFuel_congr _ _ _ _ item values (trimL_idem sub) (by omega) (by omega)
    · rw [if_neg hOR, if_neg hOR]

/-- C1: `put_item` fails with `ResourceNotFound` when the named table is
absent; when the table exists and a condition expression is supplied (and
the composite key of the input item is derivable), it fails with
`ConditionalCheckFailed` if and only if the evaluator returns false on the
currently stored item at that key and the supplied placeholder values, and
in that case the catalog — in particular the table's item mapping — is
exactly unchanged; otherwise (condition evaluating true, or no condition)
the input item is stored at its derived key, replacing any previous item
there, and the operation succeeds. -/
theorem put_item_contract (cat : Catalog) (inp : PutItemInput) :
    (alookup inp.table_name cat = none →
      put_item cat inp = some (.error (.resourceNotFoundException
        ⟨some ("Table: " ++ inp.table_name ++ " not found")⟩), cat))
    ∧ (∀ ts key, alookup inp.table_name cat = some ts →
        key_from_item ts inp.item = some key →
        ((∀ ce b, inp.condition_expression = some ce →
            evaluate_condition_expression ce (alookup key ts.items)
              inp.expression_attribute_values = some b →
            ((put_item cat inp = some (.error (.conditionalCheckFailedException
                ⟨some ("The conditional request failed")⟩), cat) ↔ b = false)
             ∧ (b = true → put_item cat inp = some (.ok ⟨none, none, none⟩,
                  ainsert inp.table_name ⟨ts.schema, ainsert key inp.item ts.items⟩ cat))))
         ∧ (inp.condition_expression = none →
             put_item cat inp = some (.ok ⟨none, none, none⟩,
               ainsert inp.table_name ⟨ts.schema, ainsert key inp.item ts.items⟩ cat)))) := by
  constructor
  · intro h
    simp [put_item, h]
  · intro ts key hts hkey
    constructor
    · intro ce b hce hev
      cases b with
      | false =>
        have hput : put_item cat inp = some (.error (.conditionalCheckFailedException
            ⟨some ("The conditional request failed")⟩), cat) := by
          simp [put_item, hts, hce, hkey, hev]
        exact ⟨⟨fun _ => rfl, fun _ => hput⟩, fun hb => by simp at hb⟩
      | true =>
        have hput : put_item cat inp = some (.ok ⟨none, none, none⟩,
            ainsert inp.table_name ⟨ts.schema, ainsert key inp.item ts.items⟩ cat) := by
          simp [put_item, hts, hce, hkey, hev]
        refine ⟨⟨fun hcc => ?_, fun hb => by simp at hb⟩, fun _ => hput⟩
        rw [hput] at hcc
        simp at hcc
    · intro hnone
      simp [put_item, hts, hnone, hkey]

/-- Sample item used by concrete witnesses. -/
def itemW : Item := [("id", .s "test-id"), ("name", .s "test-name")]

/-- Table store holding `itemW` at its derived composite key. -/
def tsW1 : TableStore := ⟨["id"], [(["S(\"test-id\")"], itemW)]⟩

/-- Catalog used by the C1 witness. -/
def catW1 : Catalog := [("test-table", tsW1)]

/-- Witness for C1: a conditional put of `itemW` guarded by
`attribute_not_exists(id)` against a table already holding that item fails
with `ConditionalCheckFailed` and leaves the catalog unchanged. -/
theorem put_item_contract_witness :
    put_item catW1 ⟨"test-table", itemW, some ("attribute_not_exists(id)"), none⟩
      = some (.error (.conditionalCheckFailedException
          ⟨some ("The conditional request failed")⟩), catW1) := by
  have h := (put_item_contract catW1
      ⟨"test-table", itemW, some ("attribute_not_exists(id)"), none⟩).2
    tsW1 ["S(\"test-id\")"] (by decide) (by decide)
  exact ((h.1 ("attribute_not_exists(id)") false rfl (by decide)).1).mpr rfl

/-- C6: `get_item` fails with `ResourceNotFound` if and only if the named
table is absent; when the table exists (and the composite key of the
caller-supplied key fragment is derivable) it succeeds, carrying the stored
item at that key when present and no item otherwise — never an error. -/
theorem get_item_contract (cat : Catalog) (inp : GetItemInput) :
    (alookup inp.table_name cat = none →
      get_item cat inp = some (.error (.resourceNotFoundException
        ⟨some ("Table: " ++ inp.table_name ++ " not found")⟩), cat))
    ∧ (∀ ts key, alookup inp.table_name cat = some ts →
        key_from_item ts inp.key = some key →
        get_item cat inp = some (.ok ⟨alookup key ts.items, none⟩, cat))
    ∧ (∀ err cat2, get_item cat inp = some (.error err, cat2) →
        alookup inp.table_name cat = none) := by
  refine ⟨?_, ?_, ?_⟩
  · intro h
    simp [get_item, h]
  · intro ts key hts hkey
    simp [get_item, hts, hkey]
  · intro err cat2 herr
    cases hts : alookup inp.table_name cat with
    | none => rfl
    | some ts =>
      cases hkey : key_from_item ts inp.key with
      | none => simp [get_item, hts, hkey] at herr
      | some key => simp [get_item, hts, hkey] at herr

/-- Catalog used by the C6 witness: one table, no stored items. -/
def catW6 : Catalog := [("test-table", ⟨["id"], []⟩)]

/-- Witness for C6: reading a missing key from an existing table succeeds
with an empty result. -/
theorem get_item_contract_witness :
    get_item catW6 ⟨"test-table", [("id", .s "nonexistent")]⟩
      = some (.ok ⟨none, none⟩, catW6) := by
  have h := (get_item_contract catW6 ⟨"test-table", [("id", .s "nonexistent")]⟩).2.1
    ⟨["id"], []⟩ ["S(\"nonexistent\")"] (by decide) (by decide)
  exact h

/-- C7: wire-facing `create_table` fails with `ResourceInUse` when a table
with the given name exists, leaving the catalog (hence that table's schema
and items) exactly unchanged; when the name is free it succeeds and inserts
an empty table store carrying the supplied key schema. -/
theorem create_table_contract (cat : Catalog) (inp : CreateTableInput) :
    (∀ ts, alookup inp.table_name cat = some ts →
      create_table cat inp = (.error (.resourceInUseException
        ⟨some ("Table " ++ inp.table_name ++ " already exists")⟩), cat))
    ∧ (alookup inp.table_name cat = none →
      create_table cat inp = (.ok ⟨none⟩,
        ainsert inp.table_name
          ⟨inp.key_schema.map (fun k => k.attribute_name), []⟩ cat)) := by
  constructor
  · intro ts h
    simp [create_table, h]
  · intro h
    simp [create_table, h]

/-- Catalog used by the C7 witness. -/
def catW7 : Catalog := [("existing-table", ⟨["id"], []⟩)]

/-- Witness for C7: creating `existing-table` a second time fails with
`ResourceInUse` and the catalog is unchanged. -/
theorem create_table_contract_witness :
    create_table catW7 ⟨"existing-table", [⟨"id"⟩]⟩
      = (.error (.resourceInUseException
          ⟨some ("Table " ++ "existing-table" ++ " already exists")⟩), catW7) :=
  (create_table_contract catW7 ⟨"existing-table", [⟨"id"⟩]⟩).1 ⟨["id"], []⟩ (by decide)

theorem get_item_state (cat : Catalog) (inp : GetItemInput)
    (r : Except GetItemError GetItemOutput) (cat2 : Catalog)
    (h : get_item cat inp = some (r, cat2)) : cat2 = cat := by
  cases hts : alookup inp.table_name cat with
  | none =>
    simp [get_item, hts] at h
    exact h.2.symm
  | some ts =>
    cases hkey : key_from_item ts inp.key with
    | none => simp [get_item, hts, hkey] at h
    | some key =>
      simp [get_item, hts, hkey] at h
      exact h.2.symm

/-- C10: `get_item` is read-only: whatever it returns, the catalog after the
call is identical to the catalog before it, and a returned item is (a copy
of) the item stored in the table at the derived key. -/
theorem get_item_readonly (cat : Catalog) (inp : GetItemInput) :
    ∀ r cat2, get_item cat inp = some (r, cat2) →
      cat2 = cat ∧
      (∀ o it, r = .ok o → o.item = some it →
        ∃ ts key, alookup inp.table_name cat = some ts ∧
          key_from_item ts inp.key = some key ∧ alookup key ts.items = some it) := by
  intro r cat2 h
  refine ⟨get_item_state cat inp r cat2 h, ?_⟩
  intro o it hr hit
  cases hts : alookup inp.table_name cat with
  | none =>
    simp [get_item, hts] at h
    rw [← h.1] at hr
    cases hr
  | some ts =>
    cases hkey : key_from_item ts inp.key with
    | none => simp [get_item, hts, hkey] at h
    | some key =>
      simp [get_item, hts, hkey] at h
      refine ⟨ts, key, rfl, hkey, ?_⟩
      rw [← h.1] at hr
      cases hr
      rw [← hit]

/-- Witness for C10: a concrete read of the stored item from `catW1`
returns it and leaves the catalog identical. -/
theorem get_item_readonly_witness :
    get_item catW1 ⟨"test-table", itemW⟩ = some (.ok ⟨some itemW, none⟩, catW1) ∧
      catW1 = catW1 :=
  ⟨rfl, (get_item_readonly catW1 ⟨"test-table", itemW⟩
      (.ok ⟨some itemW, none⟩) catW1 rfl).1⟩

theorem put_item_state (cat : Catalog) (inp : PutItemInput)
    (r : Except PutItemError PutItemOutput) (cat2 : Catalog)
    (h : put_item cat inp = some (r, cat2)) :
    cat2 = cat ∨ ∃ ts key, alookup inp.table_name cat = some ts ∧
      cat2 = ainsert inp.table_name ⟨ts.schema, ainsert key inp.item ts.items⟩ cat := by
  cases hts : alookup inp.table_name cat with
  | none =>
    left
    simp [put_item, hts] at h
    exact h.2.symm
  | some ts =>
    cases hce : inp.condition_expression with
    | none =>
      cases hkey : key_from_item ts inp.item with
      | none => simp [put_item, hts, hce, hkey] at h
      | some key =>
        right
        simp [put_item, hts, hce, hkey] at h
        exact ⟨ts, key, rfl, h.2.symm⟩
    | some ce =>
      cases hkey : key_from_item ts inp.item with
      | none => simp [put_item, hts, hce, hkey] at h
      | some key =>
        cases hev : evaluate_condition_expression ce (alookup key ts.items)
            inp.expression_attribute_values with
        | none => simp [put_item, hts, hce, hkey, hev] at h
        | some b =>
          cases b with
          | false =>
            left
            simp [put_item, hts, hce, hkey, hev] at h
            exact h.2.symm
          | true =>
            right
            simp [put_item, hts, hce, hkey, hev] at h
            exact ⟨ts, key, rfl, h.2.symm⟩

theorem preserved_of_ainsert_table (cat : Catalog) (name : String) (ts : TableStore)
    (hts : alookup name cat = some ts) (items2 : List (List String × Item)) :
    ∀ t ts0, alookup t cat = some ts0 →
      ∃ ts2, alookup t (ainsert name ⟨ts.schema, items2⟩ cat) = some ts2 ∧
        ts2.schema = ts0.schema := by
  intro t ts0 ht
  by_cases heq : t = name
  · subst heq
    rw [hts] at ht
    injection ht with h2
    subst h2
    exact ⟨⟨_, items2⟩, alookup_ainsert_self _ _ _, rfl⟩
  · exact ⟨ts0, by rw [alookup_ainsert_ne _ _ heq]; exact ht, rfl⟩

/-- C9: no operation mutates or replaces the schema of an existing table:
after any single `get_item`, `put_item`, wire-facing `create_table`, or
direct bootstrap table creation, every table that existed before still
exists with an identical key schema. -/
theorem schema_immutable (cat : Catalog) :
    (∀ (inp : GetItemInput) (r : Except GetItemError GetItemOutput) (cat2 : Catalog),
      get_item cat inp = some (r, cat2) →
      ∀ t ts, alookup t cat = some ts →
        ∃ ts2, alookup t cat2 = some ts2 ∧ ts2.schema = ts.schema)
    ∧ (∀ (inp : PutItemInput) (r : Except PutItemError PutItemOutput) (cat2 : Catalog),
        put_item cat inp = some (r, cat2) →
        ∀ t ts, alookup t cat = some ts →
          ∃ ts2, alookup t cat2 = some ts2 ∧ ts2.schema = ts.schema)
    ∧ (∀ (inp : CreateTableInput) (r : Except CreateTableError CreateTableOutput)
        (cat2 : Catalog), create_table cat inp = (r, cat2) →
        ∀ t ts, alookup t cat = some ts →
          ∃ ts2, alookup t cat2 = some ts2 ∧ ts2.schema = ts.schema)
    ∧ (∀ (name : String) (key_schema : List String) (cat2 : Catalog),
        create_table_direct cat name key_schema = some cat2 →
        ∀ t ts, alookup t cat = some ts →
          ∃ ts2, alookup t cat2 = some ts2 ∧ ts2.schema = ts.schema) := by
  refine ⟨?_, ?_, ?_, ?_⟩
  · intro inp r cat2 h t ts ht
    rw [get_item_state cat inp r cat2 h]
    exact ⟨ts, ht, rfl⟩
  · intro inp r cat2 h t ts ht
    rcases put_item_state cat inp r cat2 h with rfl | ⟨ts1, key, hts1, rfl⟩
    · exact ⟨ts, ht, rfl⟩
    · exact preserved_of_ainsert_table cat inp.table_name ts1 hts1 _ t ts ht
  · intro inp r cat2 h t ts ht
    cases hts : alookup inp.table_name cat with
    | none =>
      simp [create_table, hts] at h
      rw [← h.2]
      by_cases heq : t = inp.table_name
      · subst heq
        rw [hts] at ht
        cases ht
      · exact ⟨ts, by rw [alookup_ainsert_ne _ _ heq]; exact ht, rfl⟩
    | some ts1 =>
      simp [create_table, hts] at h
      rw [← h.2]
      exact ⟨ts, ht, rfl⟩
  · intro name key_schema cat2 h t ts ht
    cases hts : alookup name cat with
    | none =>
      simp [create_table_direct, hts] at h
      rw [← h]
      by_cases heq : t = name
      · subst heq
        rw [hts] at ht
        cases ht
      · exact ⟨ts, by rw [alookup_ainsert_ne _ _ heq]; exact ht, rfl⟩
    | some ts1 => simp [create_table_direct, hts] at h

/-- Witness for C9: after a concrete unconditional `put_item` into `catW6`,
the table still exists with its original schema. -/
theorem schema_immutable_witness :
    put_item catW6 ⟨"test-table", itemW, none, none⟩
        = some (.ok ⟨none, none, none⟩,
            ainsert "test-table" ⟨["id"], ainsert ["S(\"test-id\")"] itemW []⟩ catW6) ∧
      ∃ ts2, alookup "test-table"
          (ainsert "test-table" ⟨["id"], ainsert ["S(\"test-id\")"] itemW []⟩ catW6)
          = some ts2 ∧ ts2.schema = (⟨["id"], []⟩ : TableStore).schema := by
  constructor
  · rfl
  · exact (schema_immutable catW6).2.1 ⟨"test-table", itemW, none, none⟩
      (.ok ⟨none, none, none⟩)
      (ainsert "test-table" ⟨["id"], ainsert ["S(\"test-id\")"] itemW []⟩ catW6)
      rfl "test-table" ⟨["id"], []⟩ rfl

theorem key_from_item_schema_total (schema : List String) (item : Item)
    (h : ∀ a ∈ schema, (alookup a item).isSome) :
    ∃ k, key_from_item_schema schema item = some k := by
  induction schema with
  | nil => exact ⟨[], rfl⟩
  | cons a rest ih =>
    have ha := h a (List.mem_cons_self _ _)
    cases hv : alookup a item with
    | none => rw [hv] at ha; simp at ha
    | some v =>
      obtain ⟨k, hk⟩ := ih (fun b hb => h b (List.mem_cons_of_mem _ hb))
      exact ⟨debugFmt v :: k, by simp [key_from_item_schema, hv, hk]⟩

theorem key_from_item_schema_congr (schema : List String) (i1 i2 : Item)
    (h : ∀ a ∈ schema, alookup a i1 = alookup a i2) :
    key_from_item_schema schema i1 = key_from_item_schema schema i2 := by
  induction schema with
  | nil => rfl
  | cons a rest ih =>
    have ha := h a (List.mem_cons_self _ _)
    have hrest := ih (fun b hb => h b (List.mem_cons_of_mem _ hb))
    simp [key_from_item_schema, ha, hrest]

theorem key_from_item_schema_inj (schema : List String) (i1 i2 : Item)
    (k1 k2 : List String)
    (h1 : key_from_item_schema schema i1 = some k1)
    (h2 : key_from_item_schema schema i2 = some k2)
    (heq : k1 = k2) : ∀ a ∈ schema, alookup a i1 = alookup a i2 := by
  induction schema generalizing k1 k2 with
  | nil => intro a ha; cases ha
  | cons a rest ih =>
    intro b hb
    rw [key_from_item_schema] at h1 h2
    cases hv1 : alookup a i1 with
    | none => rw [hv1] at h1; cases h1
    | some v1 =>
      cases hv2 : alookup a i2 with
      | none => rw [hv2] at h2; cases h2
      | some v2 =>
        rw [hv1] at h1
        rw [hv2] at h2
        cases ht1 : key_from_item_schema rest i1 with
        | none => rw [ht1] at h1; cases h1
        | some t1 =>
          cases ht2 : key_from_item_schema rest i2 with
          | none => rw [ht2] at h2; cases h2
          | some t2 =>
            rw [ht1] at h1
            rw [ht2] at h2
            simp at h1 h2
            rw [← h1, ← h2] at heq
            simp at heq
            rcases List.mem_cons.mp hb with rfl | hbrest
            · rw [hv1, hv2, debugFmt_injective heq.1]
            · exact ih t1 t2 ht1 ht2 heq.2 b hbrest

/-- C2: an unconditional `put_item` of an item containing every key-schema
attribute, followed by `get_item` with a key fragment agreeing with the
item on all schema attributes, succeeds and returns an item equal to the
one that was put. -/
theorem put_get_roundtrip (cat : Catalog) (tname : String) (ts : TableStore)
    (item keyArg : Item)
    (hts : alookup tname cat = some ts)
    (hpresent : ∀ a ∈ ts.schema, (alookup a item).isSome)
    (hagree : ∀ a ∈ ts.schema, alookup a keyArg = alookup a item) :
    ∃ cat2, put_item cat ⟨tname, item, none, none⟩ = some (.ok ⟨none, none, none⟩, cat2)
      ∧ get_item cat2 ⟨tname, keyArg⟩ = some (.ok ⟨some item, none⟩, cat2) := by
  obtain ⟨k, hk⟩ := key_from_item_schema_total ts.schema item hpresent
  have hk' : key_from_item ts item = some k := hk
  refine ⟨ainsert tname ⟨ts.schema, ainsert k item ts.items⟩ cat, ?_, ?_⟩
  · simp [put_item, hts, hk']
  · have hk2 : key_from_item (⟨ts.schema, ainsert k item ts.items⟩ : TableStore) keyArg
        = some k := by
      unfold key_from_item
      rw [key_from_item_schema_congr ts.schema keyArg item hagree]
      exact hk
    simp [get_item, alookup_ainsert_self, hk2]

/-- Witness for C2: the concrete round trip through the one-table catalog
`catW6`, with a key fragment carrying only the key attribute; the resulting
catalog is `catW1`. -/
theorem put_get_roundtrip_witness :
    put_item catW6 ⟨"test-table", itemW, none, none⟩
        = some (.ok ⟨none, none, none⟩, catW1)
      ∧ get_item catW1 ⟨"test-table", [("id", .s "test-id")]⟩
        = some (.ok ⟨some itemW, none⟩, catW1) := by
  obtain ⟨cat2, h1, h2⟩ := put_get_roundtrip catW6 "test-table" ⟨["id"], []⟩ itemW
    [("id", .s "test-id")] rfl (by decide) (by decide)
  have h0 : put_item catW6 ⟨"test-table", itemW, none, none⟩
      = some (.ok ⟨none, none, none⟩, catW1) := rfl
  have hcat : cat2 = catW1 := by
    have h3 := h0.symm.trans h1
    simpa using h3.symm
  subst hcat
  exact ⟨h0, h2⟩

/-- C5: composite-key derivation is deterministic (a pure function of
schema and item) and injective with respect to value equality: two items
with derivable keys receive equal composite keys exactly when their values
agree on every schema attribute; consequently an insert at the second key
replaces the item stored at the first key exactly when the keys coincide,
and never otherwise. -/
theorem key_from_item_injective (ts : TableStore) (i1 i2 : Item)
    (k1 k2 : List String)
    (h1 : key_from_item ts i1 = some k1) (h2 : key_from_item ts i2 = some k2) :
    (k1 = k2 ↔ ∀ a ∈ ts.schema, alookup a i1 = alookup a i2)
    ∧ (∀ items : List (List String × Item),
        (k1 = k2 → alookup k1 (ainsert k2 i2 (ainsert k1 i1 items)) = some i2)
        ∧ (k1 ≠ k2 → alookup k1 (ainsert k2 i2 (ainsert k1 i1 items)) = some i1)) := by
  have h1s : key_from_item_schema ts.schema i1 = some k1 := h1
  have h2s : key_from_item_schema ts.schema i2 = some k2 := h2
  constructor
  · constructor
    · exact fun heq => key_from_item_schema_inj ts.schema i1 i2 k1 k2 h1s h2s heq
    · intro hagree
      have hc := key_from_item_schema_congr ts.schema i1 i2 hagree
      rw [hc, h2s] at h1s
      exact (Option.some.inj h1s).symm
  · intro items
    constructor
    · intro heq
      subst heq
      rw [alookup_ainsert_self]
    · intro hne
      rw [alookup_ainsert_ne _ _ hne, alookup_ainsert_self]

/-- Witness for C5: two distinct items sharing the key-attribute value
`"test-id"` derive the same composite key, so the second insert replaces
the first. -/
theorem key_from_item_injective_witness :
    alookup (["S(\"test-id\")"] : List String)
      (ainsert ["S(\"test-id\")"] [("id", AttributeValue.s "test-id")]
        (ainsert ["S(\"test-id\")"] itemW [])) =
      some [("id", AttributeValue.s "test-id")] := by
  have h := key_from_item_injective ⟨["id"], []⟩ itemW
    [("id", AttributeValue.s "test-id")]
    ["S(\"test-id\")"] ["S(\"test-id\")"] (by decide) (by decide)
  exact (h.2 []).1 rfl

/-- C8 counterexample: the claim "no crash on any input" is false on the
code: `put_item` against an existing table with an item that lacks the
key-schema attribute `id` reaches `item.get(key).unwrap()` on `None` in
`key_from_item` and panics (modelled by the `none` result). -/
theorem no_crash_counterexample :
    put_item [("t", ⟨["id"], []⟩)] ⟨"t", [], none, none⟩ = none := rfl

/-- C8 (amended): the wire operations return a typed success or recoverable
error — never the panic marker — provided that, whenever the named table
exists, the key/item contains every key-schema attribute and, for a
conditional put, evaluating the condition expression does not itself panic
(every recognised predicate marker is followed by `)`); `create_table`
is total by construction. -/
theorem no_crash_amended (cat : Catalog) (ginp : GetItemInput) (pinp : PutItemInput) :
    ((∀ ts, alookup ginp.table_name cat = some ts → (key_from_item ts ginp.key).isSome) →
      get_item cat ginp ≠ none)
    ∧ ((∀ ts, alookup pinp.table_name cat = some ts →
          (key_from_item ts pinp.item).isSome ∧
          ∀ ce key, pinp.condition_expression = some ce →
            key_from_item ts pinp.item = some key →
            evaluate_condition_expression ce (alookup key ts.items)
              pinp.expression_attribute_values ≠ none) →
      put_item cat pinp ≠ none) := by
  constructor
  · intro hwf
    cases hts : alookup ginp.table_name cat with
    | none => simp [get_item, hts]
    | some ts =>
      have hk := hwf ts hts
      cases hkey : key_from_item ts ginp.key with
      | none => rw [hkey] at hk; simp at hk
      | some key => simp [get_item, hts, hkey]
  · intro hwf
    cases hts : alookup pinp.table_name cat with
    | none => simp [put_item, hts]
    | some ts =>
      obtain ⟨hk, hcond⟩ := hwf ts hts
      cases hkey : key_from_item ts pinp.item with
      | none => rw [hkey] at hk; simp at hk
      | some key =>
        cases hce : pinp.condition_expression with
        | none => simp [put_item, hts, hce, hkey]
        | some ce =>
          have hnn := hcond ce key hce hkey
          cases hev : evaluate_condition_expression ce (alookup key ts.items)
              pinp.expression_attribute_values with
          | none => exact absurd hev hnn
          | some b =>
            cases b with
            | false => simp [put_item, hts, hce, hkey, hev]
            | true => simp [put_item, hts, hce, hkey, hev]

/-- Witness for C8 (amended): a concrete well-formed read and unconditional
write do not hit the panic marker. -/
theorem no_crash_amended_witness :
    get_item catW6 ⟨"test-table", [("id", .s "x")]⟩ ≠ none ∧
      put_item catW6 ⟨"test-table", itemW, none, none⟩ ≠ none := by
  have h := no_crash_amended catW6 ⟨"test-table", [("id", .s "x")]⟩
    ⟨"test-table", itemW, none, none⟩
  refine ⟨h.1 ?_, h.2 ?_⟩
  · intro ts hts
    have h0 : alookup "test-table" catW6 = some (⟨["id"], []⟩ : TableStore) := rfl
    rw [h0] at hts
    rw [← Option.some.inj hts]
    decide
  · intro ts hts
    have h0 : alookup "test-table" catW6 = some (⟨["id"], []⟩ : TableStore) := rfl
    rw [h0] at hts
    rw [← Option.some.inj hts]
    exact ⟨by decide, fun ce key hce => nomatch hce⟩

/-- C3: if the trimmed expression contains `" AND "`, the evaluator returns
true exactly when every sub-expression obtained by splitting on every
occurrence of `" AND "` recursively evaluates (with the same item and
placeholder map) to true; otherwise, if it contains `" OR "` and the
evaluation does not panic, it returns true exactly when at least one
sub-expression obtained by splitting on `" OR "` evaluates to true. -/
theorem evaluator_connectives (e : String) (item values : Option Item) :
    (containsL " AND ".data (trimL e.data) = true →
      (evaluate_condition_expression e item values = some true ↔
        ∀ sub ∈ splitOnL " AND ".data (trimL e.data),
          evaluate_condition_expression ⟨sub⟩ item values = some true))
    ∧ (containsL " AND ".data (trimL e.data) = false →
       containsL " OR ".data (trimL e.data) = true →
       evaluate_condition_expression e item values ≠ none →
      (evaluate_condition_expression e item values = some true ↔
        ∃ sub ∈ splitOnL " OR ".data (trimL e.data),
          evaluate_condition_expression ⟨sub⟩ item values = some true)) := by
  constructor
  · intro hAND
    rw [evaluate_condition_expression_unfold e item values, if_pos hAND]
    exact shortAll_eq_true _ _
  · intro hAND hOR hnn
    rw [evaluate_condition_expression_unfold e item values] at hnn ⊢
    rw [if_neg (by simp [hAND]), if_pos hOR] at hnn ⊢
    exact shortAny_eq_true _ _ hnn

/-- Witness for C3: a concrete conjunction of two satisfied predicates
evaluates to true because each `" AND "`-split piece does. -/
theorem evaluator_connectives_witness :
    evaluate_condition_expression
      "attribute_not_exists(id) AND attribute_not_exists(sk)" none none = some true := by
  have h := (evaluator_connectives
    "attribute_not_exists(id) AND attribute_not_exists(sk)" none none).1 (by decide)
  exact h.mpr (by decide)

/-- C4: on a connective-free (trimmed) expression — neither `" AND "` nor
`" OR "` occurs — a well-formed `attribute_not_exists(name)` predicate
evaluates true iff no current item exists or it lacks `name`; a well-formed
`attribute_exists(name)` predicate (with no not-exists marker present)
evaluates true iff a current item exists and has `name`; an equality
`attr = :placeholder` (no function markers present) evaluates true iff a
current item and placeholder map exist, both lookups succeed, and the two
values are equal under the value model's equality; and an expression
matching no recognised form evaluates to false. -/
theorem evaluator_base_cases (e : String) (item values : Option Item)
    (hAND : containsL " AND ".data (trimL e.data) = false)
    (hOR : containsL " OR ".data (trimL e.data) = false) :
    (∀ i j, findSub "attribute_not_exists(".data (trimL e.data) = some i →
      findSub [')'] ((trimL e.data).drop i) = some j →
      (evaluate_condition_expression e item values = some true ↔
        (item = none ∨ ∃ it, item = some it ∧
          alookup (⟨((trimL e.data).drop (i + 21)).take (j - 21)⟩ : String) it = none)))
    ∧ (∀ i j, findSub "attribute_not_exists(".data (trimL e.data) = none →
        findSub "attribute_exists(".data (trimL e.data) = some i →
        findSub [')'] ((trimL e.data).drop i) = some j →
        (evaluate_condition_expression e item values = some true ↔
          ∃ it, item = some it ∧
            (alookup (⟨((trimL e.data).drop (i + 17)).take (j - 17)⟩ : String) it).isSome))
    ∧ (∀ p, findSub "attribute_not_exists(".data (trimL e.data) = none →
        findSub "attribute_exists(".data (trimL e.data) = none →
        findSub " = ".data (trimL e.data) = some p →
        (evaluate_condition_expression e item values = some true ↔
          ∃ it vals iv ev, item = some it ∧ values = some vals ∧
            alookup (⟨trimL ((trimL e.data).take p)⟩ : String) it = some iv ∧
            alookup (⟨trimL ((trimL e.data).drop (p + 3))⟩ : String) vals = some ev ∧
            iv = ev))
    ∧ (findSub "attribute_not_exists(".data (trimL e.data) = none →
        findSub "attribute_exists(".data (trimL e.data) = none →
        findSub " = ".data (trimL e.data) = none →
        evaluate_condition_expression e item values = some false) := by
  have hbase : evaluate_condition_expression e item values
      = evalBase (trimL e.data) item values := by
    rw [evaluate_condition_expression_unfold e item values,
      if_neg (by simp [hAND]), if_neg (by simp [hOR])]
  refine ⟨?_, ?_, ?_, ?_⟩
  · intro i j hne hj
    rw [hbase]
    simp only [evalBase, hne, hj]
    cases item with
    | none => simp
    | some it =>
      simp [Option.isNone_iff_eq_none]
  · intro i j hne hex hj
    rw [hbase]
    simp only [evalBase, hne, hex, hj]
    cases item with
    | none => simp
    | some it => simp
  · intro p hne hex heq
    rw [hbase]
    simp only [evalBase, hne, hex, heq]
    cases item with
    | none => simp
    | some it =>
      cases values with
      | none => simp
      | some vals =>
        cases hiv : alookup (⟨trimL ((trimL e.data).take p)⟩ : String) it with
        | none => simp [hiv]
        | some iv =>
          cases hev : alookup (⟨trimL ((trimL e.data).drop (p + 3))⟩ : String) vals with
          | none => simp [hiv, hev]
          | some ev => simp [hiv, hev]
  · intro hne hex heq
    rw [hbase]
    simp only [evalBase, hne, hex, heq]

/-- Witness for C4: with no current item, the well-formed predicate
`attribute_not_exists(id)` evaluates to true. -/
theorem evaluator_base_cases_witness :
    evaluate_condition_expression "attribute_not_exists(id)" none none = some true := by
  have h := (evaluator_base_cases "attribute_not_exists(id)" none none
    (by decide) (by decide)).1 0 23 (by decide) (by decide)
  exact h.mpr (Or.inl rfl)
